import Mathlib

/-!
Shallow embedding of the dependency resolution and update engine of
sapcc/helm-outdated-dependencies (package `helm`, current version in
`pkg/helm`; an earlier snapshot of the same file is also in the repository
and is embedded separately where a claim refers to it).

External collaborators (the semantic-version library, the chart loader and
the repository index) are modelled as parameters, following the program's
use of them; every function of the repository itself is translated
directly from its Go source.

Go strings are modelled as Lean `String` values; `strings.Contains`,
`strings.HasPrefix`, `strings.TrimLeft`, `strings.TrimSuffix` and
`strings.ReplaceAll` (single-character arguments) are modelled on the
character list of the string.
-/

namespace Helm

/-- Byte-wise lexicographic "less than" on character lists, modelling Go's
built-in string comparison used by the sort less-functions. -/
def strLtCore : List Char → List Char → Bool
  | _, [] => false
  | [], _ :: _ => true
  | a :: as, b :: bs =>
    if a < b then true
    else if b < a then false
    else strLtCore as bs

/-- `strLt a b` models Go's `a < b` on strings. -/
def strLt (a b : String) : Bool :=
  strLtCore a.toList b.toList

/-- `strLe a b` holds when `b < a` fails; a Go sort whose less-function is
`<` orders its output non-decreasingly with respect to this relation. -/
def strLe (a b : String) : Bool :=
  !(strLt b a)

/-- `listInfixOf sub hay` decides whether `sub` occurs contiguously inside
`hay`; models the search of Go `strings.Contains`. -/
def listInfixOf (sub : List Char) : List Char → Bool
  | [] => sub.isEmpty
  | c :: t => sub.isPrefixOf (c :: t) || listInfixOf sub t

/-- Models Go `strings.Contains(s, sub)`: `sub` occurs inside `s`. -/
def strContains (s sub : String) : Bool :=
  listInfixOf sub.toList s.toList

/-- Models Go `strings.HasPrefix(s, p)`. -/
def strHasPre (s p : String) : Bool :=
  p.toList.isPrefixOf s.toList

/-- Models Go `strings.TrimSuffix(s, "/")` on a character list: one
trailing slash is removed when present. -/
def trimSuffixSlash (l : List Char) : List Char :=
  if l.getLast? = some '/' then l.dropLast else l

/-- One declared external package reference (`chartutil.Dependency`):
fields `Name`, `Version`, `Repository`. -/
structure Dependency where
  name : String
  version : String
  repository : String
deriving DecidableEq, Repr

/-- One outdated-dependency finding (`helm.Result`): the dependency as
declared plus the latest available version.  The version type `V` is the
external semantic-version library's version type. -/
structure Result (V : Type) where
  dep : Dependency
  latestVersion : V
deriving DecidableEq, Repr

/-- Error outcome of chart/requirements loading.
`requirementsNotFound` models `chartutil.ErrRequirementsNotFound`; every
other load failure is `loadFailed`. -/
inductive LoadError where
  | requirementsNotFound
  | loadFailed (msg : String)
deriving DecidableEq, Repr

/-- The external collaborators used by the resolver, as the program calls
them: `parse` is `semver.NewVersion`, `lt` is `semver.Version.LessThan`,
`vstr` is `semver.Version.String`, `findLatest` is
`findLatestVersionOfDependency` (cached-index lookup plus parse of the
highest entry, `none` on any failure), and `repoUpdate` is the outcome of
the plumbing part of `parallelRepoUpdate` (`repo.NewChartRepository`
errors; download failures are only printed and never propagate). -/
structure ResolveEnv (V : Type) where
  parse : String → Option V
  lt : V → V → Bool
  vstr : V → String
  findLatest : Dependency → Option V
  repoUpdate : List String → Except LoadError Unit

instance {ε α : Type} [DecidableEq ε] [DecidableEq α] : DecidableEq (Except ε α) := fun a b =>
  match a, b with
  | .error e, .error f =>
    if h : e = f then .isTrue (h ▸ rfl) else .isFalse (fun hc => h (Except.error.inj hc))
  | .error _, .ok _ => .isFalse (fun hc => Except.noConfusion hc)
  | .ok _, .error _ => .isFalse (fun hc => Except.noConfusion hc)
  | .ok x, .ok y =>
    if h : x = y then .isTrue (h ▸ rfl) else .isFalse (fun hc => h (Except.ok.inj hc))

/-- Translation of `stringSliceContains`: some element of the slice
contains the search string or is contained in it. -/
def stringSliceContains (stringSlice : List String) (searchString : String) : Bool :=
  stringSlice.any (fun s => strContains s searchString || strContains searchString s)

/-- Translation of `LoadDependencies`: load the requirements (outcome
given as `raw`), then drop dependencies whose repository starts with
`file://`. -/
def LoadDependencies (raw : Except LoadError (List Dependency)) :
    Except LoadError (List Dependency) :=
  match raw with
  | .error e => .error e
  | .ok deps => .ok (deps.filter (fun d => !(strHasPre d.repository "file://")))

/-- Translation of `filterDependenciesByRepository`: with a non-empty
filter keep only dependencies accepted by `stringSliceContains`, otherwise
keep all. -/
def filterDependenciesByRepository (deps : List Dependency)
    (repositoryFilter : List String) : List Dependency :=
  if repositoryFilter.isEmpty then deps
  else deps.filter (fun d => stringSliceContains repositoryFilter d.repository)

/-- One step of the repository-list accumulation loop at the top of
`parallelRepoUpdate`. -/
def repoStep (repos : List String) (d : Dependency) : List String :=
  if stringSliceContains repos d.repository then repos else repos ++ [d.repository]

/-- The list `repos` built by `parallelRepoUpdate`: the repositories for
which an index download is attempted (one goroutine each). -/
def parallelRepoUpdateRepos (deps : List Dependency) : List String :=
  deps.foldl repoStep []

/-- Translation of `normalizeRepoName`: `strings.TrimLeft(repoURL,
"https://")` removes the longest leading run of characters drawn from the
cutset `{h,t,p,s,:,/}` (TrimLeft takes a cutset, not a prefix), then one
trailing slash is removed and `/` and `.` are replaced by `-`. -/
def normalizeRepoName (repoURL : String) : String :=
  let name := repoURL.toList.dropWhile (fun c => "https://".toList.contains c)
  let name := trimSuffixSlash name
  let name := name.map (fun c => if c = '/' then '-' else c)
  (name.map (fun c => if c = '.' then '-' else c)).asString

/-- Modelled from the spec: the cache-key normalization as the spec words
it — the scheme stripped (as a unit), a trailing slash stripped, `/` and
`.` replaced by `-`.  Used only to compare against `normalizeRepoName`. -/
def specNormalizeRepoName (repoURL : String) : String :=
  let name :=
    if strHasPre repoURL "https://" then repoURL.toList.drop 8
    else if strHasPre repoURL "http://" then repoURL.toList.drop 7
    else repoURL.toList
  let name := trimSuffixSlash name
  let name := name.map (fun c => if c = '/' then '-' else c)
  (name.map (fun c => if c = '.' then '-' else c)).asString

/-- The body of the resolution loop of `ListOutdatedDependencies` for one
dependency: parse the declared version (skip on failure), look up the
latest available version (skip on failure), and emit a `Result` exactly
when the declared version is less than the latest. -/
def resolveDependency (env : ResolveEnv V) (dep : Dependency) : Option (Result V) :=
  match env.parse dep.version with
  | none => none
  | some depVersion =>
    match env.findLatest dep with
    | none => none
    | some latestVersion =>
      if env.lt depVersion latestVersion then some ⟨dep, latestVersion⟩ else none

/-- The resolution loop of `ListOutdatedDependencies` over all considered
dependencies, in declaration order. -/
def collectResults (env : ResolveEnv V) (deps : List Dependency) : List (Result V) :=
  deps.filterMap (resolveDependency env)

/-- Order on results used by `sortResultsAlphabetically` (Go less-function
`res[i].Name < res[j].Name`). -/
def resLE (a b : Result V) : Prop :=
  strLe a.dep.name b.dep.name = true

instance : DecidableRel (@resLE V) :=
  fun a b => inferInstanceAs (Decidable (strLe a.dep.name b.dep.name = true))

/-- Translation of `sortResultsAlphabetically` (`sort.Slice` by name). -/
def sortResultsAlphabetically (res : List (Result V)) : List (Result V) :=
  res.insertionSort resLE

/-- Order on dependencies used by `sortRequirementsAlphabetically`. -/
def depLE (a b : Dependency) : Prop :=
  strLe a.name b.name = true

instance : DecidableRel depLE :=
  fun a b => inferInstanceAs (Decidable (strLe a.name b.name = true))

/-- Translation of `sortRequirementsAlphabetically` (`sort.Slice` by
name). -/
def sortRequirementsAlphabetically (deps : List Dependency) : List Dependency :=
  deps.insertionSort depLE

/-- The dependencies the resolver considers: the loaded requirements after
the `file://` drop of `LoadDependencies` and the repository filter. -/
def consideredDeps (rawDeps : List Dependency) (repositoryFilter : List String) :
    List Dependency :=
  filterDependenciesByRepository
    (rawDeps.filter (fun d => !(strHasPre d.repository "file://"))) repositoryFilter

/-- Translation of `ListOutdatedDependencies` (current version): load
dependencies (a `requirementsNotFound` load outcome is printed and turned
into an empty result with no error), filter by repository, run the
repository refresh batch (its plumbing error propagates), then collect and
sort the outdated results. -/
def ListOutdatedDependencies (env : ResolveEnv V) (repositoryFilter : List String)
    (raw : Except LoadError (List Dependency)) : Except LoadError (List (Result V)) :=
  match LoadDependencies raw with
  | .error e => if e = .requirementsNotFound then .ok [] else .error e
  | .ok chartDeps0 =>
    let chartDeps := filterDependenciesByRepository chartDeps0 repositoryFilter
    match env.repoUpdate (parallelRepoUpdateRepos chartDeps) with
    | .error e => .error e
    | .ok _ => .ok (sortResultsAlphabetically (collectResults env chartDeps))

/-- Translation of the earlier snapshot of `ListOutdatedDependencies` kept
in the repository: the no-requirements branch returns `nil, err` (the
error is surfaced), and the results are not sorted. -/
def ListOutdatedDependenciesV0 (env : ResolveEnv V) (repositoryFilter : List String)
    (raw : Except LoadError (List Dependency)) : Except LoadError (List (Result V)) :=
  match LoadDependencies raw with
  | .error e => .error e
  | .ok chartDeps0 =>
    let chartDeps := filterDependenciesByRepository chartDeps0 repositoryFilter
    match env.repoUpdate (parallelRepoUpdateRepos chartDeps) with
    | .error e => .error e
    | .ok _ => .ok (collectResults env chartDeps)

/-- The assignments one requirements entry receives from the update loop
of `UpdateDependencies`: for each `newDep` in `reqsToUpdate`, in order,
when `newDep.Name == oldDep.Name && newDep.Repository == newDep.Repository`
(the second comparison is the source's self-comparison and is always
true), the version is overwritten with `newDep.LatestVersion.String()`. -/
def updateDepVersion (vstr : V → String) (reqsToUpdate : List (Result V))
    (oldDep : Dependency) : Dependency :=
  reqsToUpdate.foldl
    (fun acc newDep =>
      if newDep.dep.name = acc.name ∧ newDep.dep.repository = newDep.dep.repository then
        ⟨acc.name, vstr newDep.latestVersion, acc.repository⟩
      else acc)
    oldDep

/-- Translation of the document transformation of `UpdateDependencies`:
the freshly reloaded requirements receive the version overwrites of the
nested loop, then are sorted alphabetically; the result is what
`writeRequirements` serializes. -/
def UpdateDependencies (vstr : V → String) (reqsToUpdate : List (Result V))
    (reqs : List Dependency) : List Dependency :=
  sortRequirementsAlphabetically (reqs.map (updateDepVersion vstr reqsToUpdate))

/-- Translation of the file effect of `writeChartMetadata`: the metadata
file is opened with `os.O_RDWR` (no truncation) and the serialized data is
written with `WriteAt(data, 0)`, so the new file content is the data
followed by whatever of the old content lies beyond it. -/
def writeChartMetadata (data oldFile : List α) : List α :=
  data ++ oldFile.drop data.length

/-! ### Helper lemmas on the string model -/

theorem strLtCore_irrefl : ∀ l : List Char, strLtCore l l = false
  | [] => rfl
  | a :: as => by simp [strLtCore, lt_irrefl, strLtCore_irrefl as]

theorem strLtCore_trans (as : List Char) : ∀ bs cs : List Char,
    strLtCore as bs = true → strLtCore bs cs = true → strLtCore as cs = true := by
  induction as with
  | nil =>
    intro bs cs h1 h2
    cases bs with
    | nil => simp [strLtCore] at h1
    | cons b bt =>
      cases cs with
      | nil => simp [strLtCore] at h2
      | cons c ct => simp [strLtCore]
  | cons a at' ih =>
    intro bs cs h1 h2
    cases bs with
    | nil => simp [strLtCore] at h1
    | cons b bt =>
      cases cs with
      | nil => simp [strLtCore] at h2
      | cons c ct =>
        simp only [strLtCore] at h1 h2 ⊢
        rcases lt_trichotomy a b with hab | hab | hab
        · rcases lt_trichotomy b c with hbc | hbc | hbc
          · simp [lt_trans hab hbc]
          · subst hbc
            simp [hab]
          · simp [hbc, lt_asymm hbc] at h2
        · subst hab
          simp [lt_irrefl] at h1
          rcases lt_trichotomy a c with hac | hac | hac
          · simp [hac]
          · subst hac
            simp [lt_irrefl]
            exact ih _ _ h1 (by simpa [strLtCore, lt_irrefl] using h2)
          · simp [lt_asymm hac, hac] at h2
        · simp [lt_asymm hab, hab] at h1

theorem strLtCore_connex (as : List Char) : ∀ bs : List Char,
    strLtCore as bs = false → strLtCore bs as = false → as = bs := by
  induction as with
  | nil =>
    intro bs h1 _
    cases bs with
    | nil => rfl
    | cons b bt => simp [strLtCore] at h1
  | cons a at' ih =>
    intro bs h1 h2
    cases bs with
    | nil => simp [strLtCore] at h2
    | cons b bt =>
      simp only [strLtCore] at h1 h2
      rcases lt_trichotomy a b with hab | hab | hab
      · simp [hab] at h1
      · subst hab
        simp [lt_irrefl] at h1 h2
        rw [ih bt h1 h2]
      · simp [hab] at h2

theorem strLe_total (a b : String) : strLe a b = true ∨ strLe b a = true := by
  by_cases h : strLt b a = true
  · right
    simp only [strLe, Bool.not_eq_true']
    by_cases h2 : strLt a b = true
    · have := strLtCore_trans _ _ _ h h2
      rw [strLtCore_irrefl] at this
      exact absurd this (by simp)
    · simpa using h2
  · left
    simp only [strLe, Bool.not_eq_true']
    simpa using h

theorem strLe_trans (a b c : String)
    (h1 : strLe a b = true) (h2 : strLe b c = true) : strLe a c = true := by
  simp only [strLe, Bool.not_eq_true'] at h1 h2 ⊢
  unfold strLt at h1 h2 ⊢
  cases hab : strLtCore a.toList b.toList with
  | false =>
    have he := strLtCore_connex _ _ hab h1
    rw [← he] at h2
    exact h2
  | true =>
    cases hca : strLtCore c.toList a.toList with
    | false => rfl
    | true =>
      have := strLtCore_trans _ _ _ hca hab
      rw [this] at h2
      simp at h2

theorem isPrefixOf_iff (l : List Char) : ∀ t : List Char,
    l.isPrefixOf t = true ↔ ∃ r, t = l ++ r := by
  induction l with
  | nil =>
    intro t
    simp [List.isPrefixOf]
  | cons a as ih =>
    intro t
    cases t with
    | nil => simp [List.isPrefixOf]
    | cons b bt =>
      simp only [List.isPrefixOf, Bool.and_eq_true, beq_iff_eq, ih, List.cons_append,
        List.cons.injEq]
      constructor
      · rintro ⟨rfl, r, rfl⟩
        exact ⟨r, rfl, rfl⟩
      · rintro ⟨r, rfl, rfl⟩
        exact ⟨rfl, r, rfl⟩

theorem listInfixOf_iff (sub : List Char) : ∀ hay : List Char,
    listInfixOf sub hay = true ↔ ∃ pre post, hay = pre ++ sub ++ post := by
  intro hay
  induction hay with
  | nil =>
    simp only [listInfixOf, List.isEmpty_iff]
    constructor
    · rintro rfl
      exact ⟨[], [], rfl⟩
    · rintro ⟨pre, post, h⟩
      rcases List.append_eq_nil.mp h.symm with ⟨h1, -⟩
      exact (List.append_eq_nil.mp h1).2
  | cons c t ih =>
    simp only [listInfixOf, Bool.or_eq_true, isPrefixOf_iff, ih]
    constructor
    · rintro (⟨r, h⟩ | ⟨pre, post, h⟩)
      · exact ⟨[], r, by simpa using h⟩
      · exact ⟨c :: pre, post, by simp [h]⟩
    · rintro ⟨pre, post, h⟩
      cases pre with
      | nil =>
        left
        exact ⟨post, by simpa using h⟩
      | cons p ps =>
        right
        rcases List.cons.injEq .. ▸ h with ⟨-, h2⟩
        exact ⟨ps, post, by simpa using h2⟩

theorem strContains_iff (s sub : String) :
    strContains s sub = true ↔ ∃ pre post, s.toList = pre ++ sub.toList ++ post :=
  listInfixOf_iff sub.toList s.toList

theorem strContains_self (s : String) : strContains s s = true :=
  (strContains_iff s s).mpr ⟨[], [], by simp⟩

/-! ### Helper lemmas on the repository-refresh batch -/

theorem stringSliceContains_iff (l : List String) (s : String) :
    stringSliceContains l s = true ↔
      ∃ x ∈ l, (strContains x s || strContains s x) = true := by
  simp [stringSliceContains]

theorem mem_of_self_mem_slice {l : List String} {s : String} (h : s ∈ l) :
    stringSliceContains l s = true :=
  (stringSliceContains_iff l s).mpr ⟨s, h, by simp [strContains_self]⟩

theorem mem_repoStep_foldl (deps : List Dependency) : ∀ (acc : List String) (r : String),
    r ∈ deps.foldl repoStep acc → r ∈ acc ∨ r ∈ deps.map Dependency.repository := by
  induction deps with
  | nil =>
    intro acc r h
    exact Or.inl h
  | cons d t ih =>
    intro acc r h
    rcases ih (repoStep acc d) r h with h1 | h1
    · unfold repoStep at h1
      split at h1
      · exact Or.inl h1
      · rcases List.mem_append.mp h1 with h2 | h2
        · exact Or.inl h2
        · right
          rw [List.mem_singleton.mp h2]
          simp
    · right
      simp only [List.map_cons, List.mem_cons]
      exact Or.inr h1

theorem subset_repoStep_foldl (deps : List Dependency) : ∀ (acc : List String) (r : String),
    r ∈ acc → r ∈ deps.foldl repoStep acc := by
  induction deps with
  | nil =>
    intro acc r h
    exact h
  | cons d t ih =>
    intro acc r h
    refine ih (repoStep acc d) r ?_
    unfold repoStep
    split
    · exact h
    · exact List.mem_append.mpr (Or.inl h)

theorem nodup_repoStep_foldl (deps : List Dependency) : ∀ acc : List String,
    acc.Nodup → (deps.foldl repoStep acc).Nodup := by
  induction deps with
  | nil =>
    intro acc h
    exact h
  | cons d t ih =>
    intro acc h
    refine ih (repoStep acc d) ?_
    unfold repoStep
    split
    · exact h
    · next hcon =>
      refine List.nodup_append.mpr ⟨h, List.nodup_singleton _, ?_⟩
      intro x hx hx2
      rw [List.mem_singleton.mp hx2] at hx
      exact hcon (mem_of_self_mem_slice hx)

theorem complete_repoStep_foldl (U : List String)
    (hU : ∀ x ∈ U, ∀ y ∈ U, (strContains x y || strContains y x) = true → x = y) :
    ∀ (deps : List Dependency) (acc : List String),
      (∀ a ∈ acc, a ∈ U) → (∀ d ∈ deps, d.repository ∈ U) →
      ∀ d ∈ deps, d.repository ∈ deps.foldl repoStep acc := by
  intro deps
  induction deps with
  | nil =>
    intro acc _ _ d hd
    exact absurd hd (List.not_mem_nil d)
  | cons d0 t ih =>
    intro acc hacc hdeps d hd
    have hstep : ∀ a ∈ repoStep acc d0, a ∈ U := by
      intro a ha
      unfold repoStep at ha
      split at ha
      · exact hacc a ha
      · rcases List.mem_append.mp ha with h2 | h2
        · exact hacc a h2
        · rw [List.mem_singleton.mp h2]
          exact hdeps d0 (List.mem_cons_self d0 t)
    rcases List.mem_cons.mp hd with rfl | hd2
    · refine subset_repoStep_foldl t (repoStep acc d) d.repository ?_
      unfold repoStep
      split
      · next hcon =>
        rcases (stringSliceContains_iff acc d.repository).mp hcon with ⟨x, hx, hrel⟩
        have hxU := hacc x hx
        have hdU := hdeps d (List.mem_cons_self d t)
        have := hU x hxU d.repository hdU hrel
        rw [← this]
        exact hx
      · exact List.mem_append.mpr (Or.inr (List.mem_singleton_self _))
    · exact ih (repoStep acc d0) hstep (fun e he => hdeps e (List.mem_cons_of_mem d0 he)) d hd2

/-! ### Helper lemmas on the resolution loop -/

theorem resolveDependency_eq_some {V : Type} {env : ResolveEnv V} {dep : Dependency}
    {r : Result V} :
    resolveDependency env dep = some r ↔
      ∃ dv lv, env.parse dep.version = some dv ∧ env.findLatest dep = some lv ∧
        env.lt dv lv = true ∧ r = ⟨dep, lv⟩ := by
  unfold resolveDependency
  cases hp : env.parse dep.version with
  | none => simp [hp]
  | some dv =>
    cases hl : env.findLatest dep with
    | none => simp [hp, hl]
    | some lv =>
      dsimp only
      by_cases hlt : env.lt dv lv = true
      · rw [if_pos hlt]
        simp only [Option.some.injEq]
        constructor
        · rintro rfl
          exact ⟨dv, lv, rfl, rfl, hlt, rfl⟩
        · rintro ⟨dv2, lv2, h1, h2, -, rfl⟩
          subst h1
          subst h2
          rfl
      · rw [if_neg hlt]
        constructor
        · intro h
          exact absurd h (by simp)
        · rintro ⟨dv2, lv2, h1, h2, h3, rfl⟩
          rw [Option.some.injEq] at h1 h2
          subst h1
          subst h2
          exact absurd h3 hlt

theorem mem_collectResults {V : Type} {env : ResolveEnv V} {deps : List Dependency}
    {r : Result V} :
    r ∈ collectResults env deps ↔ ∃ dep ∈ deps, resolveDependency env dep = some r := by
  simp [collectResults]

theorem resolveDependency_dep {V : Type} {env : ResolveEnv V} {dep : Dependency}
    {r : Result V} (h : resolveDependency env dep = some r) : r.dep = dep := by
  rcases resolveDependency_eq_some.mp h with ⟨-, -, -, -, -, rfl⟩
  rfl

theorem listOutdated_ok_iff {V : Type} (env : ResolveEnv V) (f : List String)
    (rawDeps : List Dependency) (res : List (Result V)) :
    ListOutdatedDependencies env f (Except.ok rawDeps) = Except.ok res ↔
      env.repoUpdate (parallelRepoUpdateRepos (consideredDeps rawDeps f)) = Except.ok () ∧
      res = sortResultsAlphabetically (collectResults env (consideredDeps rawDeps f)) := by
  unfold ListOutdatedDependencies LoadDependencies consideredDeps
  cases h : env.repoUpdate
      (parallelRepoUpdateRepos (filterDependenciesByRepository
        (rawDeps.filter (fun d => !(strHasPre d.repository "file://"))) f)) with
  | error e => simp [h]
  | ok u =>
    cases u
    simp only [h, Except.ok.injEq, true_and]
    exact eq_comm

/-! ### Helper lemmas on the update loop -/

theorem updateDepVersion_cons (vstr : V → String) (r : Result V) (rs : List (Result V))
    (d : Dependency) :
    updateDepVersion vstr (r :: rs) d =
      updateDepVersion vstr rs
        (if r.dep.name = d.name then ⟨d.name, vstr r.latestVersion, d.repository⟩ else d) := by
  show updateDepVersion vstr rs
      (if r.dep.name = d.name ∧ r.dep.repository = r.dep.repository then
        ⟨d.name, vstr r.latestVersion, d.repository⟩ else d) = _
  by_cases h : r.dep.name = d.name
  · rw [if_pos ⟨h, rfl⟩, if_pos h]
  · rw [if_neg (fun hc => h hc.1), if_neg h]

theorem updateDepVersion_fields (vstr : V → String) (rs : List (Result V)) :
    ∀ d, (updateDepVersion vstr rs d).name = d.name ∧
      (updateDepVersion vstr rs d).repository = d.repository := by
  induction rs with
  | nil => exact fun d => ⟨rfl, rfl⟩
  | cons r rs ih =>
    intro d
    rw [updateDepVersion_cons]
    by_cases h : r.dep.name = d.name
    · rw [if_pos h]
      exact ih _
    · rw [if_neg h]
      exact ih d

theorem updateDepVersion_no_match (vstr : V → String) (rs : List (Result V)) :
    ∀ d, (∀ r ∈ rs, r.dep.name ≠ d.name) → updateDepVersion vstr rs d = d := by
  induction rs with
  | nil => exact fun d _ => rfl
  | cons r rs ih =>
    intro d h
    rw [updateDepVersion_cons, if_neg (h r (List.mem_cons_self r rs))]
    exact ih d (fun x hx => h x (List.mem_cons_of_mem r hx))

theorem updateDepVersion_match (vstr : V → String) (rs : List (Result V)) :
    ∀ d, (∃ r ∈ rs, r.dep.name = d.name) →
      ∃ r ∈ rs, r.dep.name = d.name ∧
        (updateDepVersion vstr rs d).version = vstr r.latestVersion := by
  induction rs with
  | nil =>
    rintro d ⟨r, hr, -⟩
    exact absurd hr (List.not_mem_nil r)
  | cons r0 rs ih =>
    intro d hex
    by_cases hrs : ∃ r ∈ rs, r.dep.name = d.name
    · rw [updateDepVersion_cons]
      by_cases h0 : r0.dep.name = d.name
      · rw [if_pos h0]
        rcases ih ⟨d.name, vstr r0.latestVersion, d.repository⟩ (by simpa using hrs) with
          ⟨r, hr, hname, hver⟩
        exact ⟨r, List.mem_cons_of_mem r0 hr, by simpa using hname, hver⟩
      · rw [if_neg h0]
        rcases ih d hrs with ⟨r, hr, hname, hver⟩
        exact ⟨r, List.mem_cons_of_mem r0 hr, hname, hver⟩
    · rcases hex with ⟨r, hr, hname⟩
      rcases List.mem_cons.mp hr with rfl | hr2
      · rw [updateDepVersion_cons, if_pos hname]
        rw [updateDepVersion_no_match vstr rs _
          (fun x hx hc => hrs ⟨x, hx, by simpa using hc⟩)]
        exact ⟨r, List.mem_cons_self r rs, hname, rfl⟩
      · exact absurd ⟨r, hr2, hname⟩ hrs

theorem updateDepVersion_version_irrel (vstr : V → String) (rs : List (Result V)) :
    ∀ (n v w repo : String), (∃ r ∈ rs, r.dep.name = n) →
      updateDepVersion vstr rs ⟨n, v, repo⟩ = updateDepVersion vstr rs ⟨n, w, repo⟩ := by
  induction rs with
  | nil =>
    rintro n v w repo ⟨r, hr, -⟩
    exact absurd hr (List.not_mem_nil r)
  | cons r0 rs ih =>
    intro n v w repo hex
    rw [updateDepVersion_cons, updateDepVersion_cons]
    by_cases h0 : r0.dep.name = n
    · rw [if_pos h0, if_pos h0]
    · rw [if_neg h0, if_neg h0]
      apply ih
      rcases hex with ⟨r, hr, hname⟩
      rcases List.mem_cons.mp hr with rfl | hr2
      · exact absurd hname h0
      · exact ⟨r, hr2, hname⟩

theorem updateDepVersion_idem (vstr : V → String) (rs : List (Result V)) (d : Dependency) :
    updateDepVersion vstr rs (updateDepVersion vstr rs d) = updateDepVersion vstr rs d := by
  by_cases hex : ∃ r ∈ rs, r.dep.name = d.name
  · have e2 : (⟨d.name, (updateDepVersion vstr rs d).version, d.repository⟩ : Dependency) =
        updateDepVersion vstr rs d := by
      obtain ⟨hn, hr⟩ := updateDepVersion_fields vstr rs d
      cases hdd : updateDepVersion vstr rs d with
      | mk n2 v2 r2 =>
        rw [hdd] at hn hr
        dsimp at hn hr
        rw [hn, hr]
    have key := updateDepVersion_version_irrel vstr rs d.name
      (updateDepVersion vstr rs d).version d.version d.repository hex
    rw [e2] at key
    exact key
  · push_neg at hex
    have h1 : updateDepVersion vstr rs d = d := updateDepVersion_no_match vstr rs d hex
    rw [h1, h1]

/-! ### Helper lemmas on sorting -/

theorem map_eq_self_of_mem {α : Type} {l : List α} {f : α → α} (h : ∀ x ∈ l, f x = x) :
    l.map f = l := by
  induction l with
  | nil => rfl
  | cons a t ih =>
    rw [List.map_cons, h a (List.mem_cons_self a t),
      ih (fun x hx => h x (List.mem_cons_of_mem a hx))]

theorem sortRequirements_sorted (l : List Dependency) :
    List.Sorted depLE (sortRequirementsAlphabetically l) := by
  haveI : IsTotal Dependency depLE := ⟨fun a b => strLe_total a.name b.name⟩
  haveI : IsTrans Dependency depLE :=
    ⟨fun a b c h1 h2 => strLe_trans a.name b.name c.name h1 h2⟩
  exact List.sorted_insertionSort depLE l

theorem sortRequirements_eq_of_sorted {l : List Dependency} (h : List.Sorted depLE l) :
    sortRequirementsAlphabetically l = l :=
  h.insertionSort_eq

theorem sortResults_sorted {V : Type} (l : List (Result V)) :
    List.Sorted resLE (sortResultsAlphabetically l) := by
  haveI : IsTotal (Result V) resLE := ⟨fun a b => strLe_total a.dep.name b.dep.name⟩
  haveI : IsTrans (Result V) resLE :=
    ⟨fun a b c h1 h2 => strLe_trans a.dep.name b.dep.name c.dep.name h1 h2⟩
  exact List.sorted_insertionSort resLE l

theorem mem_sortResults {V : Type} {l : List (Result V)} {r : Result V} :
    r ∈ sortResultsAlphabetically l ↔ r ∈ l :=
  List.mem_insertionSort resLE

theorem mem_sortRequirements {l : List Dependency} {d : Dependency} :
    d ∈ sortRequirementsAlphabetically l ↔ d ∈ l :=
  List.mem_insertionSort depLE

/-! ### Claim theorems -/

/-- Claim C1: for every dependency considered by the resolver
(`ListOutdatedDependencies`) whose declared version parses and whose
repository-index lookup succeeds, a `Result` is emitted for that dependency
if and only if the latest available version is strictly greater than the
declared one; the emitted `Result` carries the dependency as declared plus
that latest version. -/
theorem listOutdated_emits_iff_newer {V : Type} (env : ResolveEnv V)
    (repositoryFilter : List String) (rawDeps : List Dependency) (res : List (Result V))
    (dep : Dependency) (dv lv : V)
    (hrun : ListOutdatedDependencies env repositoryFilter (Except.ok rawDeps) = Except.ok res)
    (hmem : dep ∈ consideredDeps rawDeps repositoryFilter)
    (hparse : env.parse dep.version = some dv)
    (hlatest : env.findLatest dep = some lv) :
    ((∃ r ∈ res, r.dep = dep) ↔ env.lt dv lv = true) ∧
      ∀ r ∈ res, r.dep = dep → r = ⟨dep, lv⟩ := by
  obtain ⟨-, rfl⟩ := (listOutdated_ok_iff env repositoryFilter rawDeps res).mp hrun
  constructor
  · constructor
    · rintro ⟨r, hr, hdep⟩
      rcases mem_collectResults.mp (mem_sortResults.mp hr) with ⟨dep2, hdep2, hres⟩
      have hd := resolveDependency_dep hres
      rw [hdep] at hd
      subst hd
      rcases resolveDependency_eq_some.mp hres with ⟨dv2, lv2, hp2, hl2, hlt2, -⟩
      rw [hparse, Option.some.injEq] at hp2
      rw [hlatest, Option.some.injEq] at hl2
      subst hp2
      subst hl2
      exact hlt2
    · intro hlt
      have hres : resolveDependency env dep = some ⟨dep, lv⟩ :=
        resolveDependency_eq_some.mpr ⟨dv, lv, hparse, hlatest, hlt, rfl⟩
      exact ⟨⟨dep, lv⟩, mem_sortResults.mpr (mem_collectResults.mpr ⟨dep, hmem, hres⟩), rfl⟩
  · intro r hr hdep
    rcases mem_collectResults.mp (mem_sortResults.mp hr) with ⟨dep2, hdep2, hres⟩
    have hd := resolveDependency_dep hres
    rw [hdep] at hd
    subst hd
    rcases resolveDependency_eq_some.mp hres with ⟨dv2, lv2, hp2, hl2, hlt2, hr3⟩
    rw [hparse, Option.some.injEq] at hp2
    rw [hlatest, Option.some.injEq] at hl2
    subst hp2
    subst hl2
    exact hr3

/-- Witness for C1 at a concrete resolver environment and chart. -/
theorem listOutdated_emits_iff_newer_witness :
    ((∃ r ∈ [(⟨⟨"A", "1", "r1"⟩, 2⟩ : Result Nat)], r.dep = (⟨"A", "1", "r1"⟩ : Dependency)) ↔
        Nat.blt 1 2 = true) ∧
      ∀ r ∈ [(⟨⟨"A", "1", "r1"⟩, 2⟩ : Result Nat)],
        r.dep = (⟨"A", "1", "r1"⟩ : Dependency) → r = ⟨⟨"A", "1", "r1"⟩, 2⟩ :=
  listOutdated_emits_iff_newer
    ⟨fun s => some s.length, Nat.blt, toString,
      fun d => if d.name = "A" then some 2 else some 1, fun _ => Except.ok ()⟩
    [] [⟨"A", "1", "r1"⟩, ⟨"B", "1", "r1"⟩] [⟨⟨"A", "1", "r1"⟩, 2⟩]
    ⟨"A", "1", "r1"⟩ 1 2 (by decide) (by decide) (by decide) (by decide)

/-- Claim C2: `UpdateDependencies` rewrites the reloaded requirements
document to the alphabetical reordering of its entries after the per-entry
overwrite; an entry whose name equals the name of some `Result` keeps its
name and repository and has its version overwritten with such a `Result`'s
latest-version string, and an entry whose name equals no `Result`'s name is
left unchanged. -/
theorem updateDependencies_overwrites_by_name {V : Type} (vstr : V → String)
    (results : List (Result V)) (reqs : List Dependency) :
    List.Perm (UpdateDependencies vstr results reqs)
      (reqs.map (updateDepVersion vstr results)) ∧
    (∀ d, (∃ r ∈ results, r.dep.name = d.name) →
      (updateDepVersion vstr results d).name = d.name ∧
      (updateDepVersion vstr results d).repository = d.repository ∧
      ∃ r ∈ results, r.dep.name = d.name ∧
        (updateDepVersion vstr results d).version = vstr r.latestVersion) ∧
    (∀ d, (∀ r ∈ results, r.dep.name ≠ d.name) → updateDepVersion vstr results d = d) := by
  refine ⟨List.perm_insertionSort depLE _, ?_, updateDepVersion_no_match vstr results⟩
  intro d hex
  obtain ⟨hn, hr⟩ := updateDepVersion_fields vstr results d
  exact ⟨hn, hr, updateDepVersion_match vstr results d hex⟩

/-- Witness for C2 on the spec's scenario: `A` is overwritten to the new
version string, `B` is untouched. -/
theorem updateDependencies_overwrites_by_name_witness :
    (updateDepVersion toString [(⟨⟨"A", "x", "r1"⟩, (2 : Nat)⟩ : Result Nat)]
        (⟨"A", "0.1.0", "r1"⟩ : Dependency)).version = "2" ∧
    updateDepVersion toString [(⟨⟨"A", "x", "r1"⟩, (2 : Nat)⟩ : Result Nat)]
        (⟨"B", "1.0.0", "r2"⟩ : Dependency) = ⟨"B", "1.0.0", "r2"⟩ := by
  have h := updateDependencies_overwrites_by_name toString
    [(⟨⟨"A", "x", "r1"⟩, (2 : Nat)⟩ : Result Nat)]
    [⟨"A", "0.1.0", "r1"⟩, ⟨"B", "1.0.0", "r2"⟩]
  refine ⟨?_, h.2.2 ⟨"B", "1.0.0", "r2"⟩ (by decide)⟩
  rcases h.2.1 ⟨"A", "0.1.0", "r1"⟩ ⟨⟨⟨"A", "x", "r1"⟩, 2⟩, by decide, rfl⟩ with
    ⟨-, -, r, hr, -, hver⟩
  rw [List.mem_singleton.mp hr] at hver
  rw [hver]
  decide

/-- Claim C3 counterexample: with two declared repositories where one URL
is a substring of the other, the second never gets a download attempt, so
the attempted set is not the distinct declared set. -/
theorem parallelRepoUpdate_repos_counterexample :
    "https://a.com/charts2" ∈
      ([⟨"a", "1", "https://a.com/charts"⟩, ⟨"b", "1", "https://a.com/charts2"⟩] :
        List Dependency).map Dependency.repository ∧
    "https://a.com/charts2" ∉
      parallelRepoUpdateRepos
        [⟨"a", "1", "https://a.com/charts"⟩, ⟨"b", "1", "https://a.com/charts2"⟩] := by
  decide

/-- Claim C3 (amended): the attempted repository list is duplicate-free and
drawn from the declared repositories, and it equals the set of distinct
declared repository URLs whenever no two declared URLs are in a
substring relation without being equal (the dedup loop reuses
`stringSliceContains`, which matches by substring in either direction, so a
URL in substring relation with an earlier kept URL is skipped). -/
theorem parallelRepoUpdate_repos_spec (deps : List Dependency) :
    (parallelRepoUpdateRepos deps).Nodup ∧
    (∀ r ∈ parallelRepoUpdateRepos deps, r ∈ deps.map Dependency.repository) ∧
    ((∀ x ∈ deps.map Dependency.repository, ∀ y ∈ deps.map Dependency.repository,
        (strContains x y || strContains y x) = true → x = y) →
      ∀ r, r ∈ parallelRepoUpdateRepos deps ↔ r ∈ deps.map Dependency.repository) := by
  refine ⟨nodup_repoStep_foldl deps [] List.nodup_nil, ?_, ?_⟩
  · intro r hr
    rcases mem_repoStep_foldl deps [] r hr with h | h
    · exact absurd h (List.not_mem_nil r)
    · exact h
  · intro hU r
    constructor
    · intro hr
      rcases mem_repoStep_foldl deps [] r hr with h | h
      · exact absurd h (List.not_mem_nil r)
      · exact h
    · intro hr
      rcases List.mem_map.mp hr with ⟨d, hd, rfl⟩
      exact complete_repoStep_foldl (deps.map Dependency.repository) hU deps []
        (fun a ha => absurd ha (List.not_mem_nil a))
        (fun e he => List.mem_map_of_mem Dependency.repository he) d hd

/-- Witness for C3 (amended) on two unrelated repository URLs. -/
theorem parallelRepoUpdate_repos_spec_witness :
    "https://r2.example" ∈ parallelRepoUpdateRepos
      [⟨"a", "1", "https://r1.example"⟩, ⟨"b", "1", "https://r2.example"⟩] := by
  have h := parallelRepoUpdate_repos_spec
    [⟨"a", "1", "https://r1.example"⟩, ⟨"b", "1", "https://r2.example"⟩]
  exact (h.2.2 (by decide) "https://r2.example").mpr (by decide)

/-- Claim C4 counterexample: `strings.TrimLeft` takes a cutset, so a host
beginning with a cutset character loses characters beyond the scheme: the
code gives `elm-example-org` where the spec's normalization gives
`helm-example-org`. -/
theorem normalizeRepoName_counterexample :
    normalizeRepoName "https://helm.example.org" = "elm-example-org" ∧
    specNormalizeRepoName "https://helm.example.org" = "helm-example-org" ∧
    normalizeRepoName "https://helm.example.org" ≠
      specNormalizeRepoName "https://helm.example.org" := by
  decide

/-- Claim C4 (amended): on a URL of the form `https://` ++ rest where rest
does not begin with one of the cutset characters `h,t,p,s,:,/`, the code's
normalization agrees with the spec's description (scheme stripped, trailing
slash stripped, `/` and `.` replaced by `-`); in general the code strips
the longest leading run of cutset characters, not the scheme as a unit. -/
theorem normalizeRepoName_strips_scheme (rest : List Char)
    (h : rest = [] ∨ ∃ c t, rest = c :: t ∧ ("https://".toList.contains c) = false) :
    normalizeRepoName ("https://".toList ++ rest).asString =
      specNormalizeRepoName ("https://".toList ++ rest).asString := by
  have hdrop : (("https://".toList ++ rest).asString.toList.dropWhile
      (fun c => "https://".toList.contains c)) = rest := by
    rw [List.toList_asString]
    rw [show "https://".toList = ['h', 't', 't', 'p', 's', ':', '/', '/'] from rfl]
    simp only [List.cons_append, List.nil_append]
    rw [List.dropWhile_cons, if_pos (by decide)]
    rw [List.dropWhile_cons, if_pos (by decide)]
    rw [List.dropWhile_cons, if_pos (by decide)]
    rw [List.dropWhile_cons, if_pos (by decide)]
    rw [List.dropWhile_cons, if_pos (by decide)]
    rw [List.dropWhile_cons, if_pos (by decide)]
    rw [List.dropWhile_cons, if_pos (by decide)]
    rw [List.dropWhile_cons, if_pos (by decide)]
    rcases h with rfl | ⟨c, t, rfl, hc⟩
    · rfl
    · rw [List.dropWhile_cons, if_neg (by simpa using hc)]
  have hpre : strHasPre ("https://".toList ++ rest).asString "https://" = true := by
    unfold strHasPre
    rw [List.toList_asString]
    exact (isPrefixOf_iff "https://".toList ("https://".toList ++ rest)).mpr ⟨rest, rfl⟩
  have hdrop8 : ("https://".toList ++ rest).asString.toList.drop 8 = rest := by
    rw [List.toList_asString]
    exact List.drop_left' (by decide)
  unfold normalizeRepoName specNormalizeRepoName
  rw [hdrop, if_pos hpre, hdrop8]

/-- Witness for C4 (amended) at a URL with a clean host. -/
theorem normalizeRepoName_strips_scheme_witness :
    normalizeRepoName ("https://".toList ++ "example.com/charts".toList).asString =
      specNormalizeRepoName ("https://".toList ++ "example.com/charts".toList).asString :=
  normalizeRepoName_strips_scheme "example.com/charts".toList
    (Or.inr ⟨'e', "xample.com/charts".toList, by decide, by decide⟩)

/-- Claim C5 (amended): the current resolver maps the no-requirements load
outcome to an empty result set with no error; the repository's earlier
snapshot of the same function surfaces it as an error instead (see the
counterexample), so the condition is not "never" surfaced across the
repository's code. -/
theorem listOutdated_noRequirements_ok {V : Type} (env : ResolveEnv V)
    (repositoryFilter : List String) :
    ListOutdatedDependencies env repositoryFilter
      (Except.error LoadError.requirementsNotFound) = Except.ok [] := rfl

/-- Claim C5 counterexample: the earlier snapshot returns the
no-requirements condition as an error to the caller. -/
theorem listOutdatedV0_noRequirements_error :
    ListOutdatedDependenciesV0
      (⟨fun s => some s.length, Nat.blt, toString, fun _ => none,
        fun _ => Except.ok ()⟩ : ResolveEnv Nat)
      [] (Except.error LoadError.requirementsNotFound) =
      Except.error LoadError.requirementsNotFound := rfl

/-- Claim C6: with a non-empty filter list a dependency is kept if and only
if some filter entry occurs inside its declared repository or its declared
repository occurs inside that filter entry; with an empty filter everything
is kept. -/
theorem filterDependencies_spec (deps : List Dependency) (repositoryFilter : List String) :
    (repositoryFilter = [] → filterDependenciesByRepository deps repositoryFilter = deps) ∧
    (repositoryFilter ≠ [] → ∀ d,
      d ∈ filterDependenciesByRepository deps repositoryFilter ↔
        d ∈ deps ∧ ∃ s ∈ repositoryFilter,
          (∃ pre post, d.repository.toList = pre ++ s.toList ++ post) ∨
          (∃ pre post, s.toList = pre ++ d.repository.toList ++ post)) := by
  constructor
  · rintro rfl
    rfl
  · intro hne d
    unfold filterDependenciesByRepository
    rw [if_neg (by simpa [List.isEmpty_iff] using hne)]
    rw [List.mem_filter]
    refine and_congr_right (fun _ => ?_)
    rw [stringSliceContains_iff]
    constructor
    · rintro ⟨x, hx, hor⟩
      rcases Bool.or_eq_true_iff.mp hor with h | h
      · exact ⟨x, hx, Or.inr ((strContains_iff x d.repository).mp h)⟩
      · exact ⟨x, hx, Or.inl ((strContains_iff d.repository x).mp h)⟩
    · rintro ⟨s, hs, h | h⟩
      · exact ⟨s, hs, Bool.or_eq_true_iff.mpr
          (Or.inr ((strContains_iff d.repository s).mpr h))⟩
      · exact ⟨s, hs, Bool.or_eq_true_iff.mpr
          (Or.inl ((strContains_iff s d.repository).mpr h))⟩

/-- Witness for C6 on the spec's filter-matching scenario. -/
theorem filterDependencies_spec_witness :
    (⟨"x", "1", "https://repo.evil.corp/charts"⟩ : Dependency) ∈
      filterDependenciesByRepository
        [⟨"x", "1", "https://repo.evil.corp/charts"⟩] ["evil.corp"] ∧
    (⟨"x", "1", "https://repo.evil.corp/charts"⟩ : Dependency) ∉
      filterDependenciesByRepository
        [⟨"x", "1", "https://repo.evil.corp/charts"⟩] ["other.org"] := by
  have h1 := (filterDependencies_spec
    [⟨"x", "1", "https://repo.evil.corp/charts"⟩] ["evil.corp"]).2 (by decide)
    ⟨"x", "1", "https://repo.evil.corp/charts"⟩
  refine ⟨h1.mpr ⟨by decide, "evil.corp", by decide,
    Or.inl ⟨"https://repo.".toList, "/charts".toList, by decide⟩⟩, by decide⟩

/-- Claim C7: running the rewriter a second time with the same `Result`
list leaves the requirements document unchanged, so any serialization of it
is byte-identical on the second run. -/
theorem updateDependencies_idempotent {V : Type} (vstr : V → String)
    (results : List (Result V)) (reqs : List Dependency) :
    UpdateDependencies vstr results (UpdateDependencies vstr results reqs) =
      UpdateDependencies vstr results reqs ∧
    ∀ serialize : List Dependency → List Nat,
      serialize (UpdateDependencies vstr results (UpdateDependencies vstr results reqs)) =
        serialize (UpdateDependencies vstr results reqs) := by
  have key : UpdateDependencies vstr results (UpdateDependencies vstr results reqs) =
      UpdateDependencies vstr results reqs := by
    unfold UpdateDependencies
    have hmap : (sortRequirementsAlphabetically
        (reqs.map (updateDepVersion vstr results))).map (updateDepVersion vstr results) =
        sortRequirementsAlphabetically (reqs.map (updateDepVersion vstr results)) := by
      apply map_eq_self_of_mem
      intro x hx
      rcases List.mem_map.mp (mem_sortRequirements.mp hx) with ⟨y, -, rfl⟩
      exact updateDepVersion_idem vstr results y
    rw [hmap]
    exact sortRequirements_eq_of_sorted (sortRequirements_sorted _)
  exact ⟨key, fun s => by rw [key]⟩

/-- Claim C8: a dependency whose repository is file-based is dropped before
resolution and never appears in the resolver's output. -/
theorem listOutdated_no_file_repos {V : Type} (env : ResolveEnv V) (f : List String)
    (raw : Except LoadError (List Dependency)) (res : List (Result V)) (r : Result V)
    (hrun : ListOutdatedDependencies env f raw = Except.ok res) (hr : r ∈ res) :
    strHasPre r.dep.repository "file://" = false := by
  cases raw with
  | error e =>
    unfold ListOutdatedDependencies LoadDependencies at hrun
    dsimp only at hrun
    split at hrun
    · obtain rfl : ([] : List (Result V)) = res := Except.ok.inj hrun
      exact absurd hr (List.not_mem_nil r)
    · exact absurd hrun (by simp)
  | ok rawDeps =>
    obtain ⟨-, rfl⟩ := (listOutdated_ok_iff env f rawDeps res).mp hrun
    rcases mem_collectResults.mp (mem_sortResults.mp hr) with ⟨dep, hdep, hres⟩
    rw [resolveDependency_dep hres]
    have hdep2 : dep ∈ rawDeps.filter (fun d => !(strHasPre d.repository "file://")) := by
      unfold consideredDeps filterDependenciesByRepository at hdep
      split at hdep
      · exact hdep
      · exact (List.mem_filter.mp hdep).1
    have hpred := (List.mem_filter.mp hdep2).2
    simpa using hpred

/-- Witness for C8 on a chart declaring one file-based and one remote
dependency. -/
theorem listOutdated_no_file_repos_witness :
    strHasPre "r1" "file://" = false :=
  listOutdated_no_file_repos
    (⟨fun s => some s.length, Nat.blt, toString, fun _ => some 5,
      fun _ => Except.ok ()⟩ : ResolveEnv Nat)
    [] (Except.ok [⟨"A", "1", "file://local"⟩, ⟨"B", "1", "r1"⟩])
    [⟨⟨"B", "1", "r1"⟩, 5⟩] ⟨⟨"B", "1", "r1"⟩, 5⟩ (by decide) (by decide)

/-- Claim C9: every result list the resolver returns is sorted
alphabetically by dependency name. -/
theorem listOutdated_sorted {V : Type} (env : ResolveEnv V) (f : List String)
    (raw : Except LoadError (List Dependency)) (res : List (Result V))
    (hrun : ListOutdatedDependencies env f raw = Except.ok res) :
    List.Sorted resLE res := by
  cases raw with
  | error e =>
    unfold ListOutdatedDependencies LoadDependencies at hrun
    dsimp only at hrun
    split at hrun
    · obtain rfl : ([] : List (Result V)) = res := Except.ok.inj hrun
      exact List.sorted_nil
    · exact absurd hrun (by simp)
  | ok rawDeps =>
    obtain ⟨-, rfl⟩ := (listOutdated_ok_iff env f rawDeps res).mp hrun
    exact sortResults_sorted _

/-- Witness for C9 on a chart whose two outdated dependencies are declared
out of order. -/
theorem listOutdated_sorted_witness :
    List.Sorted resLE
      [(⟨⟨"A", "22", "r"⟩, (5 : Nat)⟩ : Result Nat), ⟨⟨"B", "1", "r"⟩, 5⟩] :=
  listOutdated_sorted
    (⟨fun s => some s.length, Nat.blt, toString, fun _ => some 5,
      fun _ => Except.ok ()⟩ : ResolveEnv Nat)
    [] (Except.ok [⟨"B", "1", "r"⟩, ⟨"A", "22", "r"⟩])
    [⟨⟨"A", "22", "r"⟩, 5⟩, ⟨⟨"B", "1", "r"⟩, 5⟩] (by decide)

/-- Claim C10: `writeChartMetadata` writes the serialized data at offset 0
without truncating, so the file's length is the maximum of old and new
lengths and every byte at an index at or beyond the new data's length is
the old file's byte, unchanged. -/
theorem writeChartMetadata_preserves_tail {α : Type} (data oldFile : List α) :
    (writeChartMetadata data oldFile).length = max data.length oldFile.length ∧
    ∀ i, data.length ≤ i → (writeChartMetadata data oldFile)[i]? = oldFile[i]? := by
  constructor
  · unfold writeChartMetadata
    rw [List.length_append, List.length_drop]
    omega
  · intro i hi
    unfold writeChartMetadata
    rw [List.getElem?_append_right hi, List.getElem?_drop]
    congr 1
    omega

/-- Witness for C10: a one-byte write over a three-byte file keeps the old
tail. -/
theorem writeChartMetadata_preserves_tail_witness :
    (writeChartMetadata [1] ([5, 6, 7] : List Nat)).length = max 1 3 ∧
    (writeChartMetadata [1] ([5, 6, 7] : List Nat))[2]? = ([5, 6, 7] : List Nat)[2]? := by
  have h := writeChartMetadata_preserves_tail [1] ([5, 6, 7] : List Nat)
  exact ⟨h.1, h.2 2 (by decide)⟩

end Helm
